import Mathlib

/-!
# Verification of the swift-f0 note transcription core

Shallow embedding of the algorithmic core of `src/App.vue`:
the voicing classifier (`voicedFlags`), the note segmenter
(`segmentNotes` and its `median` helper), and the MIDI encoder
(`createMidiFile` with its `encodeVariableLength` routine).

JavaScript `number` values are modelled as rationals (`ℚ`).  The two
transcendental operations (`Math.log2` in the MIDI-contour computation and
`Math.pow(2, ·)` in the frequency reconstruction) have no exact rational
counterpart, so the segmenter is parameterised by two functions
`log2 pow2 : ℚ → ℚ` standing for them; every universal theorem below holds
for *all* such functions, and concrete evaluations instantiate them only at
arguments where the true values are rational (`log2 1 = 0`, `pow2 0 = 1`).

JavaScript bitwise operators coerce their operands with `ToInt32`; where
that matters (the VLQ encoder) the coercion is modelled explicitly.
-/

namespace SwiftF0

/-- JavaScript `ToInt32`: reduce an integer into `[-2^31, 2^31)`. -/
def toInt32 (n : ℤ) : ℤ := (n + 2 ^ 31) % 2 ^ 32 - 2 ^ 31

/-- JavaScript `Math.round`: round half towards positive infinity. -/
def jsRound (x : ℚ) : ℤ := ⌊x + 1 / 2⌋

/-- `parseFloat(x.toFixed(4))`: round to 4 decimal places
(ECMAScript `toFixed` picks the larger candidate on ties). -/
def round4 (x : ℚ) : ℚ := (jsRound (x * 10000) : ℚ) / 10000

/-- `parseFloat(x.toFixed(2))`: round to 2 decimal places. -/
def round2 (x : ℚ) : ℚ := (jsRound (x * 100) : ℚ) / 100

/-- Storing an arbitrary JS number into a `Uint8Array` keeps its low byte. -/
def toUint8 (n : ℤ) : ℕ := (n % 256).toNat

/-- JavaScript `(m >> k) & 0xff` (arithmetic shift of the `ToInt32` image,
then mask to the low byte). -/
def jsByte (m : ℤ) (k : ℕ) : ℤ := ((toInt32 m).fdiv (2 ^ k)) % 256

/-- `median` from `App.vue` (the helper used by `segmentNotes` for split
decisions and for the representative pitch): sort ascending; an empty list
yields 0; an even-length list yields the *average* of the two middle
elements, an odd-length list the middle element.  The source's
`[...arr].sort((a, b) => a - b)` is a stable ascending sort; it is modelled
by `List.insertionSort`, which is stable and (being structurally recursive)
computable by the kernel. -/
def median (arr : List ℚ) : ℚ :=
  if arr.length = 0 then 0
  else
    let sorted := arr.insertionSort (· ≤ ·)
    let mid := sorted.length / 2
    if sorted.length % 2 = 0 then (sorted.getD (mid - 1) 0 + sorted.getD mid 0) / 2
    else sorted.getD mid 0

/-- The `sorted[Math.floor(sorted.length / 2)]` median used by the pitch and
MIDI statistics helpers in `App.vue` (no averaging for even length).  This is
the behaviour the specification ascribes to the segmentation median. -/
def floorMedian (arr : List ℚ) : ℚ :=
  (arr.insertionSort (· ≤ ·)).getD (arr.length / 2) 0

/-- The per-frame voicing classifier from the `voicedFlags` computed value:
`confidence > threshold && pitch >= minHz && pitch <= maxHz`. -/
def voicedFlag (confidence pitch threshold minHz maxHz : ℚ) : Bool :=
  decide (threshold < confidence) && decide (minHz ≤ pitch) && decide (pitch ≤ maxHz)

/-! ## Note segmenter (`segmentNotes` in `App.vue`) -/

/-- `SEGMENTATION_PARAMS`: the tuning record passed to `segmentNotes`. -/
structure SegParams where
  splitSemitoneThreshold : ℚ
  minNoteDuration : ℚ
  unvoicedGracePeriod : ℚ
deriving DecidableEq

/-- The default `SEGMENTATION_PARAMS` constant from `App.vue`. -/
def defaultParams : SegParams := ⟨8 / 10, 5 / 100, 2 / 100⟩

/-- An open/closed raw segment `{start, end, samples}` (`end` is renamed
`stop`, `end` being a Lean keyword). -/
structure RawSeg where
  start : ℚ
  stop : ℚ
  samples : List ℚ
deriving DecidableEq

/-- The mutable state of the segmentation loop: the `notes` accumulator, the
open segment `currentNoteSegment` (if any) and `unvoicedFramesCount`. -/
structure SegState where
  notes : List RawSeg
  cur : Option RawSeg
  unvoiced : ℕ
deriving DecidableEq

/-- One iteration of the `for` loop of `segmentNotes`.  The frame is given as
`(t, entry)` where `entry` is the MIDI-contour value at this index: `some m`
exactly when the source's `isVoiced && !isNaN(midiPitch)` test passes
(`NaN`/out-of-range entries are `none`). -/
def stepFrame (params : SegParams) (fp : ℚ) (s : SegState) (tc : ℚ × Option ℚ) :
    SegState :=
  match tc.2 with
  | some midiPitch =>
    -- voiced branch: `unvoicedFramesCount = 0` in every sub-case
    match s.cur with
    | none => ⟨s.notes, some ⟨tc.1, tc.1 + fp, [midiPitch]⟩, 0⟩
    | some seg =>
      if params.splitSemitoneThreshold ≤ |midiPitch - median seg.samples| then
        ⟨s.notes ++ [seg], some ⟨tc.1, tc.1 + fp, [midiPitch]⟩, 0⟩
      else
        ⟨s.notes, some ⟨seg.start, tc.1 + fp, seg.samples ++ [midiPitch]⟩, 0⟩
  | none =>
    match s.cur with
    | none => s
    | some seg =>
      if params.unvoicedGracePeriod ≤ ((s.unvoiced + 1 : ℕ) : ℚ) * fp then
        ⟨s.notes ++ [seg], none, 0⟩
      else
        ⟨s.notes, some ⟨seg.start, tc.1 + fp, seg.samples⟩, s.unvoiced + 1⟩

/-- The `midiContour` array: `69 + 12 * log2(max(pitch, 1e-6) / 440)` for
frames that are voiced with positive pitch, `none` (the source's `NaN`)
otherwise.  `log2` abstracts `Math.log2`. -/
def midiContour (log2 : ℚ → ℚ) (pitchHz : List ℚ) (voicing : List Bool) :
    List (Option ℚ) :=
  pitchHz.enum.map fun p =>
    if voicing.getD p.1 false ∧ 0 < p.2 then
      some (69 + 12 * log2 (max p.2 (1 / 1000000) / 440))
    else none

/-- The segmentation loop: `for (let i = 0; i < voicing.length; i++)`,
reading `timestamps[i]` and `midiContour[i]` (out-of-range reads use the
`getD` defaults; with equal-length inputs they never occur). -/
def segLoop (params : SegParams) (fp : ℚ) (timestamps : List ℚ)
    (contour : List (Option ℚ)) (len : ℕ) : SegState :=
  (List.range len).foldl
    (fun s i => stepFrame params fp s (timestamps.getD i 0, contour.getD i none))
    ⟨[], none, 0⟩

/-- A processed (not yet rounded) note from the `processedNotes` stage. -/
structure PNote where
  start : ℚ
  stop : ℚ
  pitch_median : ℚ
  midi_pitch : ℤ
deriving DecidableEq

/-- The filter/map stage of `segmentNotes`: keep segments of duration at
least `minNoteDuration` with at least one sample, and reduce them.  `pow2`
abstracts `Math.pow(2, ·)` in `440 * 2^((median - 69) / 12)`. -/
def processSeg (pow2 : ℚ → ℚ) (params : SegParams) (seg : RawSeg) :
    Option PNote :=
  if params.minNoteDuration ≤ seg.stop - seg.start ∧ seg.samples ≠ [] then
    some ⟨seg.start, seg.stop, 440 * pow2 ((median seg.samples - 69) / 12),
      jsRound (median seg.samples)⟩
  else none

/-- One iteration of the merge loop: state `(done, last)` holds the already
fixed notes and the final (still extendable) note of `finalNotes`. -/
def mergeFold (fp : ℚ) (st : List PNote × PNote) (cur : PNote) :
    List PNote × PNote :=
  if cur.start - st.2.stop ≤ fp + 1 / 1000000000 ∧ st.2.midi_pitch = cur.midi_pitch
  then (st.1, ⟨st.2.start, cur.stop, st.2.pitch_median, st.2.midi_pitch⟩)
  else (st.1 ++ [st.2], cur)

/-- The merge pass over `processedNotes` (`finalNotes` in the source). -/
def mergeNotes (fp : ℚ) : List PNote → List PNote
  | [] => []
  | p :: rest =>
    let r := rest.foldl (mergeFold fp) ([], p)
    r.1 ++ [r.2]

/-- A final `NoteSegment` as returned by `segmentNotes` (`end` renamed
`stop`). -/
structure Note where
  start : ℚ
  stop : ℚ
  pitch_median : ℚ
  pitch_midi : ℤ
deriving DecidableEq

/-- The final rounding map of `segmentNotes` (4 decimals for times, 2 for
the median frequency). -/
def roundNote (n : PNote) : Note :=
  ⟨round4 n.start, round4 n.stop, round2 n.pitch_median, n.midi_pitch⟩

/-- `segmentNotes` up to (but excluding) the final rounding map: frame
period, MIDI contour, segmentation loop, final flush, duration filter and
merge pass.  An empty `notes` or `processedNotes` list propagates to `[]`
through `List.filterMap` and `mergeNotes`, matching the source's early
returns. -/
def segmentNotesCore (log2 pow2 : ℚ → ℚ) (timestamps pitchHz : List ℚ)
    (voicing : List Bool) (params : SegParams) : List PNote :=
  if timestamps.length = 0 then []
  else
    let fp := if 1 < timestamps.length
      then timestamps.getD 1 0 - timestamps.getD 0 0 else 2 / 125
    let st := segLoop params fp timestamps (midiContour log2 pitchHz voicing)
      voicing.length
    let notes := st.notes ++ (match st.cur with | some c => [c] | none => [])
    mergeNotes fp (notes.filterMap (processSeg pow2 params))

/-- `segmentNotes` from `App.vue`. -/
def segmentNotes (log2 pow2 : ℚ → ℚ) (timestamps pitchHz : List ℚ)
    (voicing : List Bool) (params : SegParams) : List Note :=
  (segmentNotesCore log2 pow2 timestamps pitchHz voicing params).map roundNote

/-- Well-formed frame series: consecutive timestamps differ by the constant
frame period `d` (spec §6: evenly spaced timestamps). -/
def EvenlySpaced (ts : List ℚ) (d : ℚ) : Prop :=
  ∀ i : ℕ, i + 1 < ts.length → ts.getD (i + 1) 0 = ts.getD i 0 + d

/-- Loop invariant for the segmentation state machine, parameterised by the
frame period `d` and the time `T` of the next frame to be processed: closed
segments are nonempty, at least one frame period long, pairwise ordered, and
end no later than the open segment's start (or `T` when none is open); an
open segment is nonempty, at least one period long, and ends by `T`. -/
structure SegInv (d T : ℚ) (s : SegState) : Prop where
  notes_samples : ∀ seg ∈ s.notes, seg.samples ≠ []
  notes_dur : ∀ seg ∈ s.notes, seg.start + d ≤ seg.stop
  notes_pairwise : s.notes.Pairwise fun a b => a.stop ≤ b.start
  notes_stop : ∀ seg ∈ s.notes,
    seg.stop ≤ (match s.cur with | some c => c.start | none => T)
  cur_inv : ∀ c, s.cur = some c →
    c.samples ≠ [] ∧ c.start + d ≤ c.stop ∧ c.stop ≤ T

/-- Stand-in for `Math.log2` that agrees with it at `1` (`log2 1 = 0`), the
only point where concrete evaluations below use it. -/
def log2Flat (_ : ℚ) : ℚ := 0

/-- Stand-in for `Math.pow 2` that agrees with it at `0` (`2 ^ 0 = 1`), the
only point where concrete evaluations below use it. -/
def pow2One (_ : ℚ) : ℚ := 1

/-! ## MIDI encoder (`createMidiFile` in `App.vue`) -/

/-- Fuel-indexed form of the `tempChunks` loop; the fuel only bounds the
iteration count (128-fold division needs at most `w` steps), so that the
recursion is structural and kernel-computable.  `vlqLoopF_congr` below shows
the fuel value is irrelevant once sufficient. -/
def vlqLoopF : ℕ → ℕ → List ℕ
  | 0, w => [w % 128]
  | fuel + 1, w =>
    if w / 128 = 0 then [w % 128] else (w % 128) :: vlqLoopF fuel (w / 128)

/-- The low-to-high 7-bit groups of `w` (the source's `tempChunks` loop
`do { push(w & 0x7F); w >>= 7 } while (w > 0)`, specialised to the
non-negative 32-bit values it receives after the first iteration, where the
JS bitwise operators coincide with plain natural division/remainder). -/
def vlqLoop (w : ℕ) : List ℕ := vlqLoopF w w

/-- The fuel argument of `vlqLoopF` does not matter once it dominates the
value. -/
theorem vlqLoopF_congr : ∀ f1 f2 w : ℕ, w ≤ f1 + 1 → w ≤ f2 + 1 →
    vlqLoopF f1 w = vlqLoopF f2 w := by
  intro f1
  induction f1 with
  | zero =>
    intro f2 w hw1 _
    have hw0 : w / 128 = 0 := Nat.div_eq_of_lt (by omega)
    cases f2 with
    | zero => rfl
    | succ g => simp [vlqLoopF, hw0]
  | succ f ih =>
    intro f2 w hw1 hw2
    cases f2 with
    | zero =>
      have hw0 : w / 128 = 0 := Nat.div_eq_of_lt (by omega)
      simp [vlqLoopF, hw0]
    | succ g =>
      by_cases h0 : w / 128 = 0
      · simp [vlqLoopF, h0]
      · have hlt : w / 128 < w :=
          Nat.div_lt_self (by omega) (by norm_num)
        simp only [vlqLoopF, h0, if_false]
        rw [ih g (w / 128) (by omega) (by omega)]

/-- The natural recursion satisfied by `vlqLoop`: this is the loop exactly
as written in the source. -/
theorem vlqLoop_eq (w : ℕ) :
    vlqLoop w = if w / 128 = 0 then [w % 128]
      else (w % 128) :: vlqLoop (w / 128) := by
  by_cases h0 : w / 128 = 0
  · rcases Nat.eq_zero_or_pos w with hw | hw
    · subst hw; simp [vlqLoop, vlqLoopF]
    · obtain ⟨w', rfl⟩ : ∃ w', w = w' + 1 := ⟨w - 1, by omega⟩
      simp [vlqLoop, vlqLoopF, h0]
  · have hlt : w / 128 < w := Nat.div_lt_self (by omega) (by norm_num)
    obtain ⟨w', rfl⟩ : ∃ w', w = w' + 1 := ⟨w - 1, by omega⟩
    simp only [vlqLoop, vlqLoopF, h0, if_false]
    rw [vlqLoopF_congr w' ((w' + 1) / 128) ((w' + 1) / 128) (by omega) (by omega)]

/-- The full `tempChunks` list for a positive `value`.  The first loop
iteration is written out explicitly because JavaScript coerces the operand
of `& 0x7F` and `>>= 7` with `ToInt32`; when the (necessarily in-range)
quotient is still positive the remaining iterations are `vlqLoop`. -/
def vlqChunks (value : ℤ) : List ℕ :=
  let w := toInt32 value
  let c := (w % 128).toNat
  let next := w.fdiv 128
  if 0 < next then c :: vlqLoop next.toNat else [c]

/-- The second loop of `encodeVariableLength`: emit `tempChunks` from the
most significant group down, setting the continuation bit `0x80` on every
byte except the last (`i > 0` in the source indexes `tempChunks`, whose
element 0 is emitted last).  The argument is the already reversed list. -/
def withContinuation : List ℕ → List ℕ
  | [] => []
  | [b] => [b]
  | b :: rest => (b ||| 128) :: withContinuation rest

/-- `encodeVariableLength` from `createMidiFile`: `none` models the
`throw new Error(...)` on negative input. -/
def encodeVariableLength (value : ℤ) : Option (List ℕ) :=
  if value < 0 then none
  else if value = 0 then some [0]
  else some (withContinuation (vlqChunks value).reverse)

/-- Modelled from the spec: a standard MIDI variable-length-quantity reader
("big-endian, continuation-bit-flagged encoding of non-negative integers
into 7-bit groups") — no decoder exists in the repository; each byte
contributes its low 7 bits, most significant group first. -/
def decodeVLQ (bytes : List ℕ) : ℕ :=
  bytes.foldl (fun acc b => acc * 128 + b % 128) 0

/-- `secondsToTicks`: absolute seconds to absolute ticks at 480 ticks per
quarter note. -/
def secondsToTicks (tempo : ℚ) (seconds : ℚ) : ℤ :=
  jsRound (seconds * 480 * (tempo / 60))

/-- An entry of the `allEvents` array (`type` renamed `etype`). -/
structure MidiEvent where
  time : ℚ
  etype : ℤ
  note : ℤ
  velocity : ℤ
deriving DecidableEq

/-- The two point events pushed for one note: Note-On (`0x90`) at
`note.start` with `Math.min(127, velocity)`, Note-Off (`0x80`) at `note.end`
with velocity 0; the note number is `Math.max(0, Math.min(127, pitch_midi))`
for both. -/
def noteOnOff (velocity : ℤ) (n : Note) : List MidiEvent :=
  let midiNote := max 0 (min 127 n.pitch_midi)
  [⟨n.start, 0x90, midiNote, min 127 velocity⟩, ⟨n.stop, 0x80, midiNote, 0⟩]

/-- The unsorted `allEvents` array built by the `for (const note of
noteSegments)` loop. -/
def noteEvents (noteSegments : List Note) (velocity : ℤ) : List MidiEvent :=
  (noteSegments.map (noteOnOff velocity)).flatten

/-- The comparison relation of `allEvents.sort((a, b) => a.time - b.time)`:
ascending by event time. -/
def timeLE (a b : MidiEvent) : Prop := a.time ≤ b.time

instance : DecidableRel timeLE := fun a b => inferInstanceAs (Decidable (a.time ≤ b.time))

instance : IsTotal MidiEvent timeLE := ⟨fun a b => le_total a.time b.time⟩

instance : IsTrans MidiEvent timeLE := ⟨fun _ _ _ h1 h2 => le_trans h1 h2⟩

/-- The per-event loop of `createMidiFile`: delta-encode each event against
the running `lastEventTicks` (failing if a delta is negative) and emit the
three event bytes. -/
def eventBytes (tempo : ℚ) : List MidiEvent → ℤ → Option (List ℤ)
  | [], _ => some []
  | e :: rest, lastTicks =>
    let ticks := secondsToTicks tempo e.time
    match encodeVariableLength (ticks - lastTicks), eventBytes tempo rest ticks with
    | some d, some bs => some (d.map (Int.ofNat) ++ [e.etype, e.note, e.velocity] ++ bs)
    | _, _ => none

/-- `createMidiFile` from `App.vue`.  `allEvents.sort((a, b) => a.time -
b.time)` is a stable ascending sort, modelled by the stable
`List.insertionSort timeLE`; the final `Uint8Array` construction reduces
every pushed number to its low byte. -/
def createMidiFile (noteSegments : List Note) (tempo : ℚ) (velocity : ℤ) :
    Option (List ℕ) :=
  let header : List ℤ :=
    [0x4d, 0x54, 0x68, 0x64, 0, 0, 0, 6, 0, 0, 0, 1, 1, 0xe0]
  let allEvents := (noteEvents noteSegments velocity).insertionSort timeLE
  let micro := jsRound (60000000 / tempo)
  let tempoEvent : List ℤ :=
    [0, 0xff, 0x51, 0x03, jsByte micro 16, jsByte micro 8, jsByte micro 0]
  match eventBytes tempo allEvents 0 with
  | none => none
  | some evBytes =>
    let trackEvents := tempoEvent ++ evBytes ++ [0, 0xff, 0x2f, 0]
    let trackLength : ℤ := trackEvents.length
    some (((header ++ [0x4d, 0x54, 0x72, 0x6b] ++
      [jsByte trackLength 24, jsByte trackLength 16, jsByte trackLength 8,
        jsByte trackLength 0] ++ trackEvents).map toUint8))

/-! ## Helper lemmas -/

/-- `ToInt32` is the identity on `[0, 2^31)`. -/
theorem toInt32_of_lt {n : ℤ} (h0 : 0 ≤ n) (h1 : n < 2 ^ 31) : toInt32 n = n := by
  unfold toInt32
  omega

/-- Every 7-bit group produced by the chunking loop is below 128. -/
theorem vlqLoop_lt (w : ℕ) : ∀ b ∈ vlqLoop w, b < 128 := by
  induction w using Nat.strong_induction_on with
  | _ w ih =>
    rw [vlqLoop_eq]
    by_cases h0 : w / 128 = 0
    · simp [h0]
      omega
    · simp only [h0, if_false, List.mem_cons]
      rintro b (rfl | hb)
      · omega
      · exact ih (w / 128) (Nat.div_lt_self (by omega) (by norm_num)) b hb

/-- Setting the continuation bit on a 7-bit group adds 128. -/
theorem or_128_of_lt {b : ℕ} (h : b < 128) : b ||| 128 = 128 + b := by
  have : ∀ c : Fin 128, (c : ℕ) ||| 128 = 128 + c := by decide
  exact this ⟨b, h⟩

/-- The decoder is unaffected by the continuation bits, provided every group
is a 7-bit value. -/
theorem decodeVLQ_withContinuation :
    ∀ (l : List ℕ), (∀ b ∈ l, b < 128) → ∀ acc : ℕ,
      (withContinuation l).foldl (fun acc b => acc * 128 + b % 128) acc =
        l.foldl (fun acc b => acc * 128 + b % 128) acc := by
  intro l
  induction l with
  | nil => intro _ _; rfl
  | cons b rest ih =>
    intro hlt acc
    cases rest with
    | nil => rfl
    | cons c cs =>
      have hb : b < 128 := hlt b (by simp)
      simp only [withContinuation, List.foldl_cons, or_128_of_lt hb,
        Nat.add_mod_left]
      exact ih (fun x hx => hlt x (by simp [hx])) _

/-- Horner evaluation of the reversed 7-bit groups recovers the value. -/
theorem decodeVLQ_vlqLoop (w : ℕ) :
    (vlqLoop w).reverse.foldl (fun acc b => acc * 128 + b % 128) 0 = w := by
  induction w using Nat.strong_induction_on with
  | _ w ih =>
    rw [vlqLoop_eq]
    by_cases h0 : w / 128 = 0
    · simp [h0]
      omega
    · simp only [h0, if_false, List.reverse_cons, List.foldl_append,
        List.foldl_cons, List.foldl_nil]
      rw [ih (w / 128) (Nat.div_lt_self (by omega) (by norm_num))]
      omega

/-- For positive 31-bit values the chunking stage is the plain base-128
digit loop (the `ToInt32` coercions are the identity there). -/
theorem vlqChunks_of_lt {v : ℤ} (h0 : 0 < v) (h1 : v < 2 ^ 31) :
    vlqChunks v = vlqLoop v.toNat := by
  unfold vlqChunks
  simp only [toInt32_of_lt (le_of_lt h0) h1,
    Int.fdiv_eq_ediv v (by norm_num : (0 : ℤ) ≤ 128)]
  by_cases hq : 0 < v / 128
  · simp only [hq, if_true]
    conv_rhs => rw [vlqLoop_eq]
    have hq' : ¬ v.toNat / 128 = 0 := by omega
    simp only [hq', if_false]
    congr 1
    · omega
    · congr 1
      omega
  · simp only [hq, if_false]
    conv_rhs => rw [vlqLoop_eq]
    have hq' : v.toNat / 128 = 0 := by omega
    simp only [hq', if_true]
    congr 1
    omega

/-- `jsByte` with the `fdiv` unfolded to Euclidean division (the divisor is
a positive power of two). -/
theorem jsByte_eq (m : ℤ) (k : ℕ) :
    jsByte m k = ((m + 2 ^ 31) % 2 ^ 32 - 2 ^ 31) / 2 ^ k % 256 := by
  unfold jsByte toInt32
  rw [Int.fdiv_eq_ediv _ (by positivity)]

/-! ## Segmentation loop invariant -/

/-- Each loop iteration preserves the segmentation invariant, advancing the
next-frame time by one frame period. -/
theorem stepFrame_inv (params : SegParams) {d T : ℚ} {s : SegState}
    (hd : 0 < d) (entry : Option ℚ) (h : SegInv d T s) :
    SegInv d (T + d) (stepFrame params d s (T, entry)) := by
  obtain ⟨notes, cur, uc⟩ := s
  obtain ⟨hns, hnd, hnp, hnstop, hcur⟩ := h
  simp only at hns hnd hnp hnstop hcur
  cases entry with
  | some m =>
    cases cur with
    | none =>
      have hnstop' : ∀ x ∈ notes, x.stop ≤ T := fun x hx => by
        simpa using hnstop x hx
      refine ⟨hns, hnd, hnp, ?_, ?_⟩
      · intro x hx
        replace hx : x ∈ notes := hx
        show x.stop ≤ T
        exact hnstop' x hx
      · rintro c hc
        replace hc : some (⟨T, T + d, [m]⟩ : RawSeg) = some c := hc
        injection hc with hc
        subst hc
        exact ⟨by simp, le_refl _, le_refl _⟩
    | some seg =>
      obtain ⟨hcs, hcd, hcstop⟩ := hcur seg rfl
      have hss : seg.start ≤ seg.stop := by linarith
      have hnstop' : ∀ x ∈ notes, x.stop ≤ seg.start := fun x hx => by
        simpa using hnstop x hx
      by_cases hsplit : params.splitSemitoneThreshold ≤ |m - median seg.samples|
      · -- split: push the open segment, open a fresh one at T
        simp only [stepFrame, if_pos hsplit]
        refine ⟨?_, ?_, ?_, ?_, ?_⟩
        · intro x hx
          rcases List.mem_append.mp hx with hx | hx
          · exact hns x hx
          · simp only [List.mem_singleton] at hx
            subst hx; exact hcs
        · intro x hx
          rcases List.mem_append.mp hx with hx | hx
          · exact hnd x hx
          · simp only [List.mem_singleton] at hx
            subst hx; exact hcd
        · refine List.pairwise_append.mpr ⟨hnp, List.pairwise_singleton _ _, ?_⟩
          intro a ha b hb
          simp only [List.mem_singleton] at hb
          subst hb
          exact hnstop' a ha
        · intro x hx
          show x.stop ≤ T
          rcases List.mem_append.mp hx with hx | hx
          · exact le_trans (hnstop' x hx) (le_trans hss hcstop)
          · simp only [List.mem_singleton] at hx
            subst hx; exact hcstop
        · rintro c hc
          injection hc with hc
          subst hc
          exact ⟨by simp, le_refl _, le_refl _⟩
      · -- no split: append the sample and extend the open segment
        simp only [stepFrame, if_neg hsplit]
        refine ⟨hns, hnd, hnp, ?_, ?_⟩
        · intro x hx
          show x.stop ≤ seg.start
          exact hnstop' x hx
        · rintro c hc
          injection hc with hc
          subst hc
          refine ⟨by simp, ?_, le_refl _⟩
          show seg.start + d ≤ T + d
          linarith
  | none =>
    cases cur with
    | none =>
      have hnstop' : ∀ x ∈ notes, x.stop ≤ T := fun x hx => by
        simpa using hnstop x hx
      refine ⟨hns, hnd, hnp, ?_, ?_⟩
      · intro x hx
        replace hx : x ∈ notes := hx
        show x.stop ≤ T + d
        have := hnstop' x hx
        linarith
      · rintro c hc
        replace hc : (none : Option RawSeg) = some c := hc
        cases hc
    | some seg =>
      obtain ⟨hcs, hcd, hcstop⟩ := hcur seg rfl
      have hss : seg.start ≤ seg.stop := by linarith
      have hnstop' : ∀ x ∈ notes, x.stop ≤ seg.start := fun x hx => by
        simpa using hnstop x hx
      by_cases hgrace :
          params.unvoicedGracePeriod ≤ ((uc + 1 : ℕ) : ℚ) * d
      · -- grace period exceeded: close the open segment
        simp only [stepFrame, if_pos hgrace]
        refine ⟨?_, ?_, ?_, ?_, ?_⟩
        · intro x hx
          rcases List.mem_append.mp hx with hx | hx
          · exact hns x hx
          · simp only [List.mem_singleton] at hx
            subst hx; exact hcs
        · intro x hx
          rcases List.mem_append.mp hx with hx | hx
          · exact hnd x hx
          · simp only [List.mem_singleton] at hx
            subst hx; exact hcd
        · refine List.pairwise_append.mpr ⟨hnp, List.pairwise_singleton _ _, ?_⟩
          intro a ha b hb
          simp only [List.mem_singleton] at hb
          subst hb
          exact hnstop' a ha
        · intro x hx
          show x.stop ≤ T + d
          rcases List.mem_append.mp hx with hx | hx
          · have := hnstop' x hx
            linarith
          · simp only [List.mem_singleton] at hx
            subst hx
            linarith
        · rintro c hc
          replace hc : (none : Option RawSeg) = some c := hc
          cases hc
      · -- tolerated gap: extend the open segment without a sample
        simp only [stepFrame, if_neg hgrace]
        refine ⟨hns, hnd, hnp, ?_, ?_⟩
        · intro x hx
          show x.stop ≤ seg.start
          exact hnstop' x hx
        · rintro c hc
          injection hc with hc
          subst hc
          refine ⟨hcs, ?_, le_refl _⟩
          show seg.start + d ≤ T + d
          linarith

/-- With evenly spaced timestamps, `timestamps[i] = timestamps[0] + i
periods`. -/
theorem EvenlySpaced.getD_eq {ts : List ℚ} {d : ℚ} (h : EvenlySpaced ts d) :
    ∀ i : ℕ, i < ts.length → ts.getD i 0 = ts.getD 0 0 + i * d := by
  intro i
  induction i with
  | zero => intro _; simp
  | succ k ih =>
    intro hk
    have hk' : k + 1 < ts.length := hk
    rw [h k hk', ih (by omega)]
    push_cast
    ring

/-- The segmentation loop establishes the invariant at the time of the first
unprocessed frame. -/
theorem segLoop_inv (params : SegParams) {d : ℚ} (hd : 0 < d)
    (ts : List ℚ) (hts : EvenlySpaced ts d) (contour : List (Option ℚ)) :
    ∀ len : ℕ, len ≤ ts.length →
      SegInv d (ts.getD 0 0 + len * d) (segLoop params d ts contour len) := by
  intro len
  induction len with
  | zero =>
    intro _
    refine ⟨?_, ?_, ?_, ?_, ?_⟩ <;>
      simp [segLoop]
  | succ k ih =>
    intro hlen
    have hk : k < ts.length := by omega
    have ht : ts.getD k 0 = ts.getD 0 0 + k * d := hts.getD_eq k hk
    have hstep := stepFrame_inv params hd (contour.getD k none)
      (ih (by omega))
    unfold segLoop
    rw [List.range_succ, List.foldl_append, List.foldl_cons, List.foldl_nil]
    rw [ht, show ts.getD 0 0 + ((k + 1 : ℕ) : ℚ) * d
      = (ts.getD 0 0 + (k : ℕ) * d) + d by push_cast; ring]
    exact hstep

/-- What survives `processSeg`: the filter condition holds and the times are
carried over unchanged. -/
theorem processSeg_eq_some {pow2 : ℚ → ℚ} {params : SegParams} {seg : RawSeg}
    {p : PNote} (h : processSeg pow2 params seg = some p) :
    p.start = seg.start ∧ p.stop = seg.stop ∧
      params.minNoteDuration ≤ seg.stop - seg.start := by
  unfold processSeg at h
  split at h
  · injection h with h
    subst h
    exact ⟨rfl, rfl, by tauto⟩
  · cases h

/-- `round4` is monotone (floor and positive scaling are monotone). -/
theorem round4_mono {x y : ℚ} (h : x ≤ y) : round4 x ≤ round4 y := by
  unfold round4 jsRound
  have : (⌊x * 10000 + 1 / 2⌋ : ℤ) ≤ ⌊y * 10000 + 1 / 2⌋ :=
    Int.floor_le_floor (by linarith)
  have h2 : ((⌊x * 10000 + 1 / 2⌋ : ℤ) : ℚ) ≤ ((⌊y * 10000 + 1 / 2⌋ : ℤ) : ℚ) := by
    exact_mod_cast this
  have h10 : (0 : ℚ) < 10000 := by norm_num
  rw [div_le_div_iff₀ h10 h10]
  nlinarith [h2]

/-- Invariant of the merge fold: ordering and the duration lower bounds are
preserved from `(done, last, remaining)` to the final `finalNotes` list. -/
theorem mergeFold_inv (fp d m : ℚ) (hd : 0 < d) :
    ∀ (rest done : List PNote) (last : PNote),
      ((done ++ last :: rest).Pairwise fun a b => a.stop ≤ b.start) →
      (∀ x ∈ done ++ last :: rest,
        m ≤ x.stop - x.start ∧ d ≤ x.stop - x.start) →
      (((rest.foldl (mergeFold fp) (done, last)).1 ++
          [(rest.foldl (mergeFold fp) (done, last)).2]).Pairwise
        fun a b => a.stop ≤ b.start) ∧
      ∀ x ∈ (rest.foldl (mergeFold fp) (done, last)).1 ++
          [(rest.foldl (mergeFold fp) (done, last)).2],
        m ≤ x.stop - x.start ∧ d ≤ x.stop - x.start := by
  intro rest
  induction rest with
  | nil =>
    intro done last hp hq
    simp only [List.foldl_nil]
    exact ⟨hp, hq⟩
  | cons cur rest ih =>
    intro done last hp hq
    simp only [List.foldl_cons]
    -- facts from the pairwise hypothesis
    have hlast_cur : last.stop ≤ cur.start := by
      have := (List.pairwise_append.mp hp).2.1
      exact (List.pairwise_cons.mp this).1 cur (by simp)
    have hlast_dur := hq last (by simp)
    have hcur_dur := hq cur (by simp)
    by_cases hmerge : cur.start - last.stop ≤ fp + 1 / 1000000000 ∧
        last.midi_pitch = cur.midi_pitch
    · -- absorb `cur` into `last`
      rw [show mergeFold fp (done, last) cur
        = (done, ⟨last.start, cur.stop, last.pitch_median, last.midi_pitch⟩)
        from by unfold mergeFold; rw [if_pos hmerge]]
      have hls : last.start ≤ cur.start := by
        have h1 : last.start ≤ last.stop := by
          have := hlast_dur.2; linarith
        linarith
      refine ih done _ ?_ ?_
      · -- Pairwise (done ++ last' :: rest)
        rw [List.pairwise_append] at hp ⊢
        obtain ⟨hpd, hpr, hdr⟩ := hp
        rw [List.pairwise_cons] at hpr
        obtain ⟨hlr, hcr⟩ := hpr
        rw [List.pairwise_cons] at hcr
        obtain ⟨hcr1, hcr2⟩ := hcr
        refine ⟨hpd, ?_, ?_⟩
        · rw [List.pairwise_cons]
          exact ⟨fun y hy => hcr1 y hy, hcr2⟩
        · intro a ha b hb
          rcases List.mem_cons.mp hb with rfl | hb
          · exact hdr a ha last (by simp)
          · exact hdr a ha b (by simp [hb])
      · intro x hx
        rcases List.mem_append.mp hx with hx | hx
        · exact hq x (by simp [hx])
        · rcases List.mem_cons.mp hx with rfl | hx
          · constructor
            · show m ≤ cur.stop - last.start
              have : m ≤ cur.stop - cur.start := hcur_dur.1
              linarith
            · show d ≤ cur.stop - last.start
              have : d ≤ cur.stop - cur.start := hcur_dur.2
              linarith
          · exact hq x (by simp [hx])
    · -- append `last` to the fixed prefix and continue with `cur`
      rw [show mergeFold fp (done, last) cur = (done ++ [last], cur)
        from by unfold mergeFold; rw [if_neg hmerge]]
      refine ih (done ++ [last]) cur ?_ ?_
      · rw [List.append_assoc, List.singleton_append]
        exact hp
      · intro x hx
        rw [List.append_assoc, List.singleton_append] at hx
        exact hq x hx

/-- The merge pass preserves ordering and the duration lower bounds. -/
theorem mergeNotes_inv (fp d m : ℚ) (hd : 0 < d) (l : List PNote)
    (hp : l.Pairwise fun a b => a.stop ≤ b.start)
    (hq : ∀ x ∈ l, m ≤ x.stop - x.start ∧ d ≤ x.stop - x.start) :
    ((mergeNotes fp l).Pairwise fun a b => a.stop ≤ b.start) ∧
      ∀ x ∈ mergeNotes fp l, m ≤ x.stop - x.start ∧ d ≤ x.stop - x.start := by
  cases l with
  | nil => exact ⟨List.Pairwise.nil, by simp [mergeNotes]⟩
  | cons p rest =>
    have := mergeFold_inv fp d m hd rest [] p (by simpa using hp)
      (by simpa using hq)
    simpa [mergeNotes] using this

/-- After the final flush, the duration/ordering facts descend from the loop
invariant to the merged output of the remaining pipeline. -/
theorem flush_pipeline_inv {fp T : ℚ} (hfp : 0 < fp) {st : SegState}
    (hinv : SegInv fp T st) (pow2 : ℚ → ℚ) (params : SegParams) :
    ((mergeNotes fp
        ((st.notes ++ (match st.cur with | some c => [c] | none => [])).filterMap
          (processSeg pow2 params))).Pairwise fun a b => a.stop ≤ b.start) ∧
    ∀ n ∈ mergeNotes fp
        ((st.notes ++ (match st.cur with | some c => [c] | none => [])).filterMap
          (processSeg pow2 params)),
      params.minNoteDuration ≤ n.stop - n.start ∧ fp ≤ n.stop - n.start := by
  obtain ⟨h1, h2, h3, h4, h5⟩ := hinv
  set fl := st.notes ++ (match st.cur with | some c => [c] | none => [])
    with hfl
  have hfl_dur : ∀ seg ∈ fl, seg.start + fp ≤ seg.stop := by
    intro x hx
    rw [hfl] at hx
    cases hc : st.cur with
    | none =>
      rw [hc] at hx
      simp only [List.append_nil] at hx
      exact h2 x hx
    | some c =>
      rw [hc] at hx
      rcases List.mem_append.mp hx with hx | hx
      · exact h2 x hx
      · simp only [List.mem_singleton] at hx
        subst hx
        exact (h5 _ hc).2.1
  have hfl_pair : fl.Pairwise fun a b => a.stop ≤ b.start := by
    rw [hfl]
    cases hc : st.cur with
    | none =>
      simpa using h3
    | some c =>
      refine List.pairwise_append.mpr ⟨h3, List.pairwise_singleton _ _, ?_⟩
      intro a ha b hb
      simp only [List.mem_singleton] at hb
      subst hb
      have := h4 a ha
      rw [hc] at this
      simpa using this
  have hpl_pair :
      (fl.filterMap (processSeg pow2 params)).Pairwise
        fun a b => a.stop ≤ b.start := by
    refine List.Pairwise.filterMap _ ?_ hfl_pair
    intro a a' hrel p hp p' hp'
    have e1 := processSeg_eq_some (Option.mem_def.mp hp)
    have e2 := processSeg_eq_some (Option.mem_def.mp hp')
    rw [e1.2.1, e2.1]
    exact hrel
  have hpl_dur : ∀ p ∈ fl.filterMap (processSeg pow2 params),
      params.minNoteDuration ≤ p.stop - p.start ∧ fp ≤ p.stop - p.start := by
    intro p hp
    obtain ⟨seg, hseg, he⟩ := List.mem_filterMap.mp hp
    obtain ⟨e1, e2, hdur⟩ := processSeg_eq_some he
    have hsd := hfl_dur seg hseg
    constructor
    · rw [e1, e2]; exact hdur
    · rw [e1, e2]; linarith
  exact mergeNotes_inv fp fp params.minNoteDuration hfp _ hpl_pair hpl_dur

/-- **Pipeline invariant.**  For a well-formed (evenly spaced, positive
frame period, equal-length) input, every note of the pre-rounding segmenter
output has duration at least `minNoteDuration` and strictly positive
duration, and the list is pairwise time-ordered. -/
theorem segmentNotesCore_inv (log2 pow2 : ℚ → ℚ) (ts pitchHz : List ℚ)
    (voicing : List Bool) (params : SegParams) {d : ℚ} (hd : 0 < d)
    (hts : EvenlySpaced ts d) (hv : voicing.length = ts.length) :
    ((segmentNotesCore log2 pow2 ts pitchHz voicing params).Pairwise
      fun a b => a.stop ≤ b.start) ∧
    ∀ n ∈ segmentNotesCore log2 pow2 ts pitchHz voicing params,
      params.minNoteDuration ≤ n.stop - n.start ∧ 0 < n.stop - n.start := by
  by_cases h0 : ts.length = 0
  · unfold segmentNotesCore
    rw [if_pos h0]
    simp
  · unfold segmentNotesCore
    rw [if_neg h0]
    by_cases h1 : 1 < ts.length
    · rw [if_pos h1]
      have hfp : ts.getD 1 0 - ts.getD 0 0 = d := by
        rw [hts 0 (by omega)]
        ring
      rw [hfp]
      have hinv := segLoop_inv params hd ts hts
        (midiContour log2 pitchHz voicing) voicing.length (le_of_eq hv)
      have H := flush_pipeline_inv hd hinv pow2 params
      refine ⟨H.1, ?_⟩
      intro n hn
      have h := H.2 n hn
      exact ⟨h.1, by linarith [h.2]⟩
    · rw [if_neg h1]
      have hts' : EvenlySpaced ts (2 / 125) := by
        intro i hi
        omega
      have hd' : (0 : ℚ) < 2 / 125 := by norm_num
      have hinv := segLoop_inv params hd' ts hts'
        (midiContour log2 pitchHz voicing) voicing.length (le_of_eq hv)
      have H := flush_pipeline_inv hd' hinv pow2 params
      refine ⟨H.1, ?_⟩
      intro n hn
      have h := H.2 n hn
      exact ⟨h.1, by linarith [h.2]⟩

/-! ## Claim theorems -/

/-- **C1 (counterexample).** The median `segmentNotes` uses for its split
decisions does *not* return the element at index `⌊n/2⌋` of the sorted
samples for even counts: on `[60, 62]` it averages the two middle elements
(the `⌊n/2⌋` behaviour belongs to the statistics helpers, `floorMedian`). -/
theorem median_not_floorMedian_on_pair :
    median [60, 62] ≠ floorMedian [60, 62] := by
  norm_num [median, floorMedian, List.insertionSort, List.orderedInsert]

/-- **C1 (amended).** For a nonempty even-length sample list, the
segmentation median is the *average* of the two middle elements of the
ascending-sorted samples (indices `n/2 - 1` and `n/2`), exactly as the
general helper median; no `⌊n/2⌋`-indexing asymmetry exists in
`segmentNotes`. -/
theorem median_even_is_average (arr : List ℚ) (hne : arr ≠ [])
    (heven : arr.length % 2 = 0) :
    median arr =
      ((arr.insertionSort (· ≤ ·)).getD (arr.length / 2 - 1) 0 +
        (arr.insertionSort (· ≤ ·)).getD (arr.length / 2) 0) / 2 := by
  have hlen : arr.length ≠ 0 := fun h => hne (List.length_eq_zero.mp h)
  simp [median, List.length_insertionSort, hlen, heven]

/-- Witness for `median_even_is_average` at `[60, 62]`: the averaged median
is `61`. -/
theorem median_even_is_average_witness : median [60, 62] = 61 := by
  rw [median_even_is_average [60, 62] (by simp) (by simp)]
  norm_num [List.insertionSort, List.orderedInsert]

/-- **C2.** The voicing classifier returns `true` iff the confidence
strictly exceeds the threshold and the pitch lies inclusively inside the
band; in particular a confidence exactly at the threshold is unvoiced and a
pitch exactly at either band edge can be voiced. -/
theorem voicedFlag_iff : ∀ c p th lo hi : ℚ,
    (voicedFlag c p th lo hi = true ↔ th < c ∧ lo ≤ p ∧ p ≤ hi) ∧
    voicedFlag th p th lo hi = false ∧
    voicedFlag 1 80 (9 / 10) 80 2000 = true ∧
    voicedFlag 1 2000 (9 / 10) 80 2000 = true := by
  intro c p th lo hi
  refine ⟨?_, ?_, ?_, ?_⟩
  · simp [voicedFlag, and_assoc]
  · simp [voicedFlag]
  · norm_num [voicedFlag]
  · norm_num [voicedFlag]

/-- **C3 (counterexample).** The duration invariant does not survive the
final rounding to 4 decimal places.  With evenly spaced timestamps
`[0.000051, 0.000131]` (period `0.00008 > 0`, equal lengths), threshold 0.8,
`min_note_duration = grace = 0.00007`, the single voiced 440 Hz frame yields
the raw note `[0.000051, 0.000131]` (duration `0.00008 ≥ 0.00007`), but both
endpoints round to `0.0001`, so the reported segment has `start = end` and
duration `0 < min_note_duration`. -/
theorem segmentNotes_rounding_breaks_duration :
    ¬ ∀ n ∈ segmentNotes log2Flat pow2One [51 / 1000000, 131 / 1000000]
        [440, 440] [true, false] ⟨8 / 10, 7 / 100000, 7 / 100000⟩,
      n.start < n.stop ∧ (7 : ℚ) / 100000 ≤ n.stop - n.start := by
  rw [show segmentNotes log2Flat pow2One [51 / 1000000, 131 / 1000000]
      [440, 440] [true, false] ⟨8 / 10, 7 / 100000, 7 / 100000⟩
      = [⟨1 / 10000, 1 / 10000, 440, 69⟩] from by
    norm_num [segmentNotes, segmentNotesCore, segLoop, stepFrame, midiContour,
      processSeg, mergeNotes, mergeFold, roundNote, median, round4, round2,
      jsRound, log2Flat, pow2One, List.insertionSort, List.orderedInsert,
      List.range_succ, List.filterMap_cons, List.filterMap_nil]]
  norm_num

/-- **C3 (amended).** For every well-formed input (equal lengths, evenly
spaced timestamps, positive frame period) and every parameter set, every
note of the segmenter output *before the final 4-decimal rounding of start
and end* satisfies `start < end` and `end - start ≥ min_note_duration`; the
rounding map can shrink the reported duration by up to `10⁻⁴` and so break
both bounds in the reported values. -/
theorem segmentNotesCore_bounds (log2 pow2 : ℚ → ℚ) (ts pitchHz : List ℚ)
    (voicing : List Bool) (params : SegParams) {d : ℚ} (hd : 0 < d)
    (hts : EvenlySpaced ts d) (hv : voicing.length = ts.length)
    (hph : pitchHz.length = ts.length) :
    ∀ n ∈ segmentNotesCore log2 pow2 ts pitchHz voicing params,
      n.start < n.stop ∧ params.minNoteDuration ≤ n.stop - n.start := by
  intro n hn
  have H := (segmentNotesCore_inv log2 pow2 ts pitchHz voicing params
    hd hts hv).2 n hn
  exact ⟨by linarith [H.2], H.1⟩

/-- Witness for `segmentNotesCore_bounds`: a 2-frame voiced run at 440 Hz
with period `1/10` yields the raw note `[0, 1/5]`, which satisfies both
bounds. -/
theorem segmentNotesCore_bounds_witness :
    (⟨0, 1 / 5, 440, 69⟩ : PNote).start < (⟨0, 1 / 5, 440, 69⟩ : PNote).stop ∧
      defaultParams.minNoteDuration ≤
        (⟨0, 1 / 5, 440, 69⟩ : PNote).stop - (⟨0, 1 / 5, 440, 69⟩ : PNote).start :=
  segmentNotesCore_bounds log2Flat pow2One [0, 1 / 10] [440, 440]
    [true, true] defaultParams (d := 1 / 10) (by norm_num)
    (by
      intro i hi
      norm_num at hi
      have h0 : i = 0 := by omega
      subst h0
      norm_num)
    rfl rfl ⟨0, 1 / 5, 440, 69⟩
    (by
      norm_num [segmentNotesCore, segLoop, stepFrame, midiContour,
        processSeg, mergeNotes, mergeFold, median, jsRound, log2Flat, pow2One,
        defaultParams, List.insertionSort, List.orderedInsert,
        List.range_succ, List.filterMap_cons, List.filterMap_nil,
        show (([69, 69] : List ℚ) = []) = False from by simp])

/-- **C4.** For every well-formed input (equal lengths, evenly spaced
timestamps, positive frame period) and every parameter set, the returned
segment list is time-ordered and non-overlapping: consecutive segments
satisfy `segments[i].end ≤ segments[i+1].start` (the 4-decimal rounding is
monotone, so the ordering survives it). -/
theorem segmentNotes_ordered (log2 pow2 : ℚ → ℚ) (ts pitchHz : List ℚ)
    (voicing : List Bool) (params : SegParams) {d : ℚ} (hd : 0 < d)
    (hts : EvenlySpaced ts d) (hv : voicing.length = ts.length)
    (hph : pitchHz.length = ts.length) :
    List.Chain' (fun a b => a.stop ≤ b.start)
      (segmentNotes log2 pow2 ts pitchHz voicing params) := by
  have H := (segmentNotesCore_inv log2 pow2 ts pitchHz voicing params
    hd hts hv).1
  refine List.Pairwise.chain' ?_
  unfold segmentNotes
  refine List.Pairwise.map _ ?_ H
  intro a b hab
  exact round4_mono hab

/-- Witness for `segmentNotes_ordered`: a 4-frame run whose pitch jump at
frame 2 splits it into two adjacent segments. -/
theorem segmentNotes_ordered_witness :
    List.Chain' (fun a b => a.stop ≤ b.start)
      (segmentNotes (fun q => q) pow2One [0, 1 / 10, 2 / 10, 3 / 10]
        [440, 440, 880, 880] [true, true, true, true] ⟨8 / 10, 1 / 10, 2 / 100⟩) :=
  segmentNotes_ordered (fun q => q) pow2One [0, 1 / 10, 2 / 10, 3 / 10]
    [440, 440, 880, 880] [true, true, true, true] ⟨8 / 10, 1 / 10, 2 / 100⟩
    (d := 1 / 10) (by norm_num)
    (by
      intro i hi
      norm_num at hi
      have h3 : i < 3 := by omega
      interval_cases i <;> norm_num)
    rfl rfl

/-- **C5 (counterexample).** At `v = 2^31` the claimed VLQ round-trip law
fails: JavaScript's 32-bit bitwise arithmetic wraps the value, the encoder
emits the single byte `0x00`, and decoding gives `0 ≠ 2^31`. -/
theorem vlq_roundtrip_fails_at_two_pow_31 :
    encodeVariableLength (2 ^ 31) = some [0] ∧ decodeVLQ [0] = 0 ∧
      (0 : ℤ) ≠ 2 ^ 31 := by
  refine ⟨by decide, rfl, by norm_num⟩

/-- **C5 (amended).** For non-negative `v` *below `2^31`* decoding the VLQ
encoding of `v` yields `v` again; encoding `0` yields exactly the single
byte `0x00`; and a negative value is rejected with an error (`none`) rather
than silently wrapped. -/
theorem vlq_roundtrip : ∀ v : ℤ,
    (0 ≤ v → v < 2 ^ 31 →
      ∃ bs, encodeVariableLength v = some bs ∧ (decodeVLQ bs : ℤ) = v) ∧
    encodeVariableLength 0 = some [0] ∧
    (v < 0 → encodeVariableLength v = none) := by
  intro v
  refine ⟨?_, by decide, ?_⟩
  · intro h0 h1
    rcases eq_or_lt_of_le h0 with rfl | hpos
    · exact ⟨[0], by decide, rfl⟩
    · refine ⟨withContinuation (vlqChunks v).reverse, ?_, ?_⟩
      · unfold encodeVariableLength
        rw [if_neg (by omega), if_neg (by omega)]
      · rw [vlqChunks_of_lt hpos h1]
        unfold decodeVLQ
        rw [decodeVLQ_withContinuation _
          (fun b hb => vlqLoop_lt v.toNat b (List.mem_reverse.mp hb))]
        rw [decodeVLQ_vlqLoop]
        omega
  · intro hneg
    unfold encodeVariableLength
    rw [if_pos hneg]

/-- Witness for `vlq_roundtrip` at `v = 480` and `v = -1`. -/
theorem vlq_roundtrip_witness :
    (decodeVLQ ((encodeVariableLength 480).getD []) : ℤ) = 480 ∧
      encodeVariableLength 0 = some [0] ∧ encodeVariableLength (-1) = none := by
  refine ⟨?_, (vlq_roundtrip 0).2.1, (vlq_roundtrip (-1)).2.2 (by norm_num)⟩
  obtain ⟨bs, hbs, hdec⟩ := (vlq_roundtrip 480).1 (by norm_num) (by norm_num)
  rw [hbs]
  exact hdec

/-- **C6 (counterexample).** The claimed byte stream for
`encode([{start: 0, end: 1, pitch_midi: 60}], tempo 120, velocity 80)` is
wrong: at 480 ticks per quarter and 120 bpm one second is 960 ticks, so the
Note-Off delta is `VLQ(960) = 87 40`, not `VLQ(480) = 83 60`. -/
theorem createMidiFile_single_note_not_claimed :
    createMidiFile [⟨0, 1, 0, 60⟩] 120 80 ≠ some
      [0x4d, 0x54, 0x68, 0x64, 0, 0, 0, 6, 0, 0, 0, 1, 0x01, 0xe0,
       0x4d, 0x54, 0x72, 0x6b, 0, 0, 0, 20,
       0x00, 0xff, 0x51, 0x03, 0x07, 0xa1, 0x20,
       0x00, 0x90, 0x3c, 0x50,
       0x83, 0x60, 0x80, 0x3c, 0x00,
       0x00, 0xff, 0x2f, 0x00] := by
  unfold createMidiFile
  norm_num [noteEvents, noteOnOff, List.insertionSort, List.orderedInsert, timeLE,
    eventBytes, secondsToTicks, jsRound, jsByte_eq, toUint8,
    show encodeVariableLength 0 = some [0] from by decide,
    show encodeVariableLength 960 = some [135, 64] from by decide]
  omega

/-- **C6 (amended).** Encoding the single note
`{start: 0, end: 1, pitch_midi: 60}` at tempo 120 and velocity 80 produces
the header `4D 54 68 64 00 00 00 06 00 00 00 01 01 E0`, then an MTrk chunk
of declared length 20 whose event stream is the tempo meta-event
(`00 FF 51 03 07 A1 20`), a Note-On at delta 0 (`00 90 3C 50`), a Note-Off
at delta **960** (`VLQ(960) = 87 40`, then `80 3C 00`), and end-of-track
`00 FF 2F 00`. -/
theorem createMidiFile_single_note :
    createMidiFile [⟨0, 1, 0, 60⟩] 120 80 = some
      [0x4d, 0x54, 0x68, 0x64, 0, 0, 0, 6, 0, 0, 0, 1, 0x01, 0xe0,
       0x4d, 0x54, 0x72, 0x6b, 0, 0, 0, 20,
       0x00, 0xff, 0x51, 0x03, 0x07, 0xa1, 0x20,
       0x00, 0x90, 0x3c, 0x50,
       0x87, 0x40, 0x80, 0x3c, 0x00,
       0x00, 0xff, 0x2f, 0x00] := by
  unfold createMidiFile
  norm_num [noteEvents, noteOnOff, List.insertionSort, List.orderedInsert, timeLE,
    eventBytes, secondsToTicks, jsRound, jsByte_eq, toUint8,
    show encodeVariableLength 0 = some [0] from by decide,
    show encodeVariableLength 960 = some [135, 64] from by decide]
  omega

/-- **C7 (counterexample).** A velocity argument below 0 is *not* clamped
into `[0, 127]`: `Math.min(127, velocity)` only clamps from above, so
velocity `-5` is emitted as `-5` on the Note-On event instead of the
claimed `0`. -/
theorem noteEvents_negative_velocity_unclamped :
    noteEvents [⟨0, 1, 0, 60⟩] (-5) =
      [⟨0, 0x90, 60, -5⟩, ⟨1, 0x80, 60, 0⟩] ∧
      (-5 : ℤ) ≠ max 0 (min 127 (-5)) := by
  refine ⟨?_, by norm_num⟩
  norm_num [noteEvents, noteOnOff]

/-- Each note contributes exactly two entries to `allEvents`. -/
theorem noteEvents_length (noteSegments : List Note) (velocity : ℤ) :
    (noteEvents noteSegments velocity).length = 2 * noteSegments.length := by
  simp only [noteEvents]
  induction noteSegments with
  | nil => rfl
  | cons h t ih =>
    simp only [List.map_cons, List.flatten_cons, List.length_append, ih,
      List.length_cons, noteOnOff, List.length_nil]
    omega

/-- **C7 (amended).** For every note in the input list the encoder emits
exactly two channel events: a Note-On at the note's start whose velocity is
`min(127, velocity)` (clamped from above only — negative velocities pass
through) and whose note number is `pitch_midi` clamped to `[0, 127]`, and a
Note-Off at the note's end with velocity 0 and the same clamped note
number; in total exactly two events per input note. -/
theorem noteEvents_per_note (noteSegments : List Note) (velocity : ℤ)
    (n : Note) (hn : n ∈ noteSegments) :
    (⟨n.start, 0x90, max 0 (min 127 n.pitch_midi), min 127 velocity⟩ :
        MidiEvent) ∈ noteEvents noteSegments velocity ∧
    (⟨n.stop, 0x80, max 0 (min 127 n.pitch_midi), 0⟩ :
        MidiEvent) ∈ noteEvents noteSegments velocity ∧
    (noteEvents noteSegments velocity).length = 2 * noteSegments.length := by
  refine ⟨?_, ?_, ?_⟩
  · simp only [noteEvents, List.mem_flatten]
    exact ⟨noteOnOff velocity n, List.mem_map_of_mem _ hn, by simp [noteOnOff]⟩
  · simp only [noteEvents, List.mem_flatten]
    exact ⟨noteOnOff velocity n, List.mem_map_of_mem _ hn, by simp [noteOnOff]⟩
  · exact noteEvents_length noteSegments velocity

/-- Witness for `noteEvents_per_note` on a one-note list. -/
theorem noteEvents_per_note_witness :
    (⟨0, 0x90, 60, 80⟩ : MidiEvent) ∈ noteEvents [⟨0, 1, 0, 60⟩] 80 ∧
    (⟨1, 0x80, 60, 0⟩ : MidiEvent) ∈ noteEvents [⟨0, 1, 0, 60⟩] 80 ∧
    (noteEvents [⟨0, 1, 0, 60⟩] 80).length = 2 * 1 := by
  have h := noteEvents_per_note [⟨0, 1, 0, 60⟩] 80 ⟨0, 1, 0, 60⟩ (by simp)
  norm_num at h ⊢
  exact h

/-- **C8.** Encoding an empty note list raises no error and produces a
structurally valid MIDI file: the 14-byte header, the `MTrk` tag, a declared
track length of 11 matching the byte count of the event stream, and an event
stream consisting of exactly the tempo meta-event followed by end-of-track. -/
theorem createMidiFile_empty :
    createMidiFile [] 120 80 = some
      ([0x4d, 0x54, 0x68, 0x64, 0, 0, 0, 6, 0, 0, 0, 1, 0x01, 0xe0] ++
        [0x4d, 0x54, 0x72, 0x6b] ++ [0, 0, 0, 11] ++
        ([0x00, 0xff, 0x51, 0x03, 0x07, 0xa1, 0x20] ++ [0x00, 0xff, 0x2f, 0x00])) ∧
    ([0x00, 0xff, 0x51, 0x03, 0x07, 0xa1, 0x20] ++
        ([0x00, 0xff, 0x2f, 0x00] : List ℕ)).length = 11 := by
  refine ⟨?_, by rfl⟩
  unfold createMidiFile
  norm_num [noteEvents, List.insertionSort, eventBytes, jsRound, jsByte_eq, toUint8]
  omega

/-- **C9 (counterexample).** Called with sequences of unequal lengths
(timestamps and pitches of length 2, voicing of length 1) the segmenter does
*not* fail fast with a length-mismatch error: it silently returns a (here
nonempty) segment list. -/
theorem segmentNotes_mismatched_lengths_silent :
    segmentNotes log2Flat pow2One [0, 1] [440, 440] [true] defaultParams ≠ [] := by
  norm_num [segmentNotes, segmentNotesCore, segLoop, stepFrame, midiContour,
    processSeg, mergeNotes, mergeFold, roundNote, median, round4, round2,
    jsRound, log2Flat, pow2One, defaultParams, List.insertionSort,
    List.orderedInsert, List.range_succ, List.filterMap_cons, List.filterMap_nil]

/-- **C9 (amended).** The segmenter performs no length check: with
mismatched input lengths it iterates over the voicing sequence's length and
silently produces an ordinary segment list (here one note spanning the
single voiced frame). -/
theorem segmentNotes_mismatched_eval :
    segmentNotes log2Flat pow2One [0, 1] [440, 440] [true] defaultParams
      = [⟨0, 1, 440, 69⟩] := by
  norm_num [segmentNotes, segmentNotesCore, segLoop, stepFrame, midiContour,
    processSeg, mergeNotes, mergeFold, roundNote, median, round4, round2,
    jsRound, log2Flat, pow2One, defaultParams, List.insertionSort,
    List.orderedInsert, List.range_succ, List.filterMap_cons, List.filterMap_nil]

/-- A non-negative delta is always encodable. -/
theorem encodeVariableLength_isSome {v : ℤ} (h : 0 ≤ v) :
    ∃ bs, encodeVariableLength v = some bs := by
  unfold encodeVariableLength
  rcases eq_or_lt_of_le h with rfl | hpos
  · exact ⟨[0], by norm_num⟩
  · exact ⟨_, by rw [if_neg (by omega), if_neg (by omega)]⟩

/-- Tick conversion is monotone for non-negative tempo. -/
theorem secondsToTicks_mono {tempo : ℚ} (ht : 0 ≤ tempo) {s t : ℚ}
    (h : s ≤ t) : secondsToTicks tempo s ≤ secondsToTicks tempo t := by
  unfold secondsToTicks jsRound
  apply Int.floor_le_floor
  have h60 : (0 : ℚ) ≤ tempo / 60 := div_nonneg ht (by norm_num)
  nlinarith

/-- Tick conversion sends non-negative times to non-negative ticks. -/
theorem secondsToTicks_nonneg {tempo s : ℚ} (ht : 0 ≤ tempo) (hs : 0 ≤ s) :
    0 ≤ secondsToTicks tempo s := by
  unfold secondsToTicks jsRound
  have h60 : (0 : ℚ) ≤ tempo / 60 := div_nonneg ht (by norm_num)
  have : (0 : ℚ) ≤ s * 480 * (tempo / 60) := by positivity
  have := Int.floor_le_floor (α := ℚ)
    (show (1 : ℚ) / 2 ≤ s * 480 * (tempo / 60) + 1 / 2 by linarith)
  simpa using le_trans (by norm_num) this

/-- The delta-encoding loop succeeds on any time-sorted event list whose
first event is no earlier than the running tick counter. -/
theorem eventBytes_isSome {tempo : ℚ} (ht : 0 ≤ tempo) :
    ∀ (evs : List MidiEvent) (lastTicks : ℤ),
      List.Pairwise timeLE evs →
      (∀ e ∈ evs, lastTicks ≤ secondsToTicks tempo e.time) →
      ∃ bs, eventBytes tempo evs lastTicks = some bs := by
  intro evs
  induction evs with
  | nil => exact fun _ _ _ => ⟨[], rfl⟩
  | cons e rest ih =>
    intro lastTicks hp hle
    have h0 : 0 ≤ secondsToTicks tempo e.time - lastTicks := by
      have := hle e (by simp)
      omega
    obtain ⟨dbytes, hd⟩ := encodeVariableLength_isSome h0
    obtain ⟨bs, hbs⟩ := ih (secondsToTicks tempo e.time)
      (List.pairwise_cons.mp hp).2
      (fun e' he' =>
        secondsToTicks_mono ht ((List.pairwise_cons.mp hp).1 e' he'))
    simp only [eventBytes, hd, hbs]
    exact ⟨_, rfl⟩

/-- Every event in `allEvents` carries a start or stop time of some input
note. -/
theorem noteEvents_time_nonneg {noteSegments : List Note} {velocity : ℤ}
    (hn : ∀ n ∈ noteSegments, 0 ≤ n.start ∧ 0 ≤ n.stop) :
    ∀ e ∈ noteEvents noteSegments velocity, 0 ≤ e.time := by
  intro e he
  simp only [noteEvents, List.mem_flatten, List.mem_map] at he
  obtain ⟨l, ⟨n, hn', rfl⟩, he⟩ := he
  simp only [noteOnOff, List.mem_cons, List.mem_singleton] at he
  rcases he with rfl | rfl | h
  · exact (hn n hn').1
  · exact (hn n hn').2
  · cases h

/-- **C10.** For every note list whose start and end times are non-negative
(and any non-negative tempo), the MIDI encoder terminates normally and never
raises: the events are globally time-sorted before delta computation, so
every delta passed to the VLQ routine is non-negative and the negative-value
error branch is unreachable. -/
theorem createMidiFile_total (noteSegments : List Note) (tempo : ℚ)
    (velocity : ℤ) (ht : 0 ≤ tempo)
    (hn : ∀ n ∈ noteSegments, 0 ≤ n.start ∧ 0 ≤ n.stop) :
    ∃ bs, createMidiFile noteSegments tempo velocity = some bs := by
  have hsorted :
      List.Pairwise timeLE
        ((noteEvents noteSegments velocity).insertionSort timeLE) :=
    List.sorted_insertionSort timeLE _
  have htick : ∀ e ∈ (noteEvents noteSegments velocity).insertionSort timeLE,
      (0 : ℤ) ≤ secondsToTicks tempo e.time := by
    intro e he
    have he' : e ∈ noteEvents noteSegments velocity :=
      ((List.perm_insertionSort timeLE _).mem_iff).mp he
    exact secondsToTicks_nonneg ht (noteEvents_time_nonneg hn e he')
  obtain ⟨bs, hbs⟩ := eventBytes_isSome ht
    ((noteEvents noteSegments velocity).insertionSort timeLE) 0 hsorted htick
  simp only [createMidiFile, hbs]
  exact ⟨_, rfl⟩

/-- Witness for `createMidiFile_total` at the one-note list. -/
theorem createMidiFile_total_witness :
    (createMidiFile [⟨0, 1, 0, 60⟩] 120 80).isSome = true := by
  obtain ⟨bs, hbs⟩ := createMidiFile_total [⟨0, 1, 0, 60⟩] 120 80 (by norm_num)
    (by
      intro n hnmem
      simp only [List.mem_singleton] at hnmem
      subst hnmem
      norm_num)
  rw [hbs]
  rfl

end SwiftF0
